import Mathlib

/-!
Verification development for the Ganoderma paper RAG pipeline.

Shallow embedding of the three core source modules:
* `src/processors/text_chunker.py`  — sentence splitting, greedy chunking with
  sentence-level overlap, metadata wrapping, section-wise chunking;
* `src/processors/pdf_parser.py`    — heading classification and structure
  extraction with the references-heading early stop;
* `src/rag/retriever.py`            — bilingual query expansion, keyword
  scoring, ranking and top-k retrieval.

Python strings are modelled through their character lists; Python dicts by
association lists with first-match lookup and in-place replacing writes,
which matches insertion-ordered dict semantics.  Python integers are `Int`
(configuration values) or `Nat` (lengths and counts).
-/

/-! ## Python string primitives -/

/-- Characters matched by the Python `\s` class and by `str.split()` /
`str.strip()` (ASCII fragment: space, tab, newline, carriage return,
vertical tab, form feed). -/
def pyIsSpace (c : Char) : Bool :=
  c = ' ' || c = '\t' || c = '\n' || c = '\r' || c.toNat = 11 || c.toNat = 12

/-- ASCII lower-casing of one character, as `str.lower` does on ASCII text. -/
def lowerChar (c : Char) : Char :=
  if 65 ≤ c.toNat ∧ c.toNat ≤ 90 then Char.ofNat (c.toNat + 32) else c

/-- Python `str.lower()` (ASCII fragment; non-ASCII characters are kept). -/
def pyLower (s : String) : String := String.mk (s.data.map lowerChar)

/-- Python `str.strip()`: drop leading and trailing whitespace. -/
def pyStrip (s : String) : String :=
  String.mk (((s.data.dropWhile pyIsSpace).reverse.dropWhile pyIsSpace).reverse)

/-- Prefix test on character lists. -/
def isPrefixCL : List Char → List Char → Bool
  | [], _ => true
  | _ :: _, [] => false
  | a :: as, b :: bs => a = b && isPrefixCL as bs

/-- Substring containment on character lists (`pat` occurs somewhere in the
second argument). -/
def containsCL (pat : List Char) : List Char → Bool
  | [] => isPrefixCL pat []
  | c :: rest => isPrefixCL pat (c :: rest) || containsCL pat rest

/-- Python `pat in hay` substring test. -/
def strContains (hay pat : String) : Bool := containsCL pat.data hay.data

/-- Helper for `pySplit`: scan characters, breaking tokens at whitespace. -/
def splitWsAux : List Char → List Char → List String
  | [], acc => if acc.isEmpty then [] else [String.mk acc.reverse]
  | c :: rest, acc =>
    if pyIsSpace c then
      if acc.isEmpty then splitWsAux rest []
      else String.mk acc.reverse :: splitWsAux rest []
    else splitWsAux rest (c :: acc)

/-- Python `str.split()` with no argument: split on whitespace runs and drop
empty tokens. -/
def pySplit (s : String) : List String := splitWsAux s.data []

/-- Helper for `pyCount`: count non-overlapping occurrences of `pat`,
scanning left to right; after a match, `skip` forces the scan past the
remaining matched characters before matching may resume. -/
def pyCountAux (pat : List Char) : List Char → Nat → Nat
  | [], _ => 0
  | c :: rest, 0 =>
    if isPrefixCL pat (c :: rest) then 1 + pyCountAux pat rest (pat.length - 1)
    else pyCountAux pat rest 0
  | _ :: rest, skip + 1 => pyCountAux pat rest skip

/-- Python `hay.count(pat)`: the number of non-overlapping occurrences of
`pat` in `hay` (for the empty pattern Python returns `len(hay) + 1`). -/
def pyCount (hay pat : String) : Nat :=
  if pat.data.isEmpty then hay.data.length + 1 else pyCountAux pat.data hay.data 0

/-- Python `str.isupper()` (ASCII fragment): at least one cased character and
no lower-case character. -/
def pyIsUpper (s : String) : Bool :=
  s.data.any (fun c => c.isUpper) && s.data.all (fun c => !c.isLower)

/-! ## Python dict model

A Python dict is an insertion-ordered association list with unique keys.
`pyGet` is `d.get(k)`, `pySet` is `d[k] = v` (replace in place when the key
exists, append otherwise), `pyUpdate` is `d.update(m)`, iterating the items
of `m` in order. -/

/-- Values stored in chunk dictionaries: strings and non-negative integers. -/
inductive Val where
  | vs : String → Val
  | vn : Nat → Val
deriving DecidableEq, Repr

/-- A Python dict, modelled as an insertion-ordered association list. -/
abbrev Dict := List (String × Val)

/-- Python `d.get(k)` / `d[k]`: first-match lookup. -/
def pyGet : Dict → String → Option Val
  | [], _ => none
  | (k', v) :: d, k => if k' = k then some v else pyGet d k

/-- Python `d[k] = v`: replace the binding in place, or append a new one. -/
def pySet : Dict → String → Val → Dict
  | [], k, v => [(k, v)]
  | (k', v') :: d, k, v => if k' = k then (k, v) :: d else (k', v') :: pySet d k v

/-- Python `d.update(m)`: write every item of `m` into `d`, in order. -/
def pyUpdate (d : Dict) (m : Dict) : Dict :=
  m.foldl (fun acc kv => pySet acc kv.1 kv.2) d

/-! ## TextChunker (src/processors/text_chunker.py) -/

/-- Configuration stored by `TextChunker.__init__` (it only assigns the three
fields; no validation is performed). -/
structure TextChunker where
  chunk_size : Int
  chunk_overlap : Int
  min_chunk_size : Int
deriving DecidableEq, Repr

/-- The constructor `TextChunker.__init__`: plain field assignment. -/
def TextChunker.init (chunk_size chunk_overlap min_chunk_size : Int) : TextChunker :=
  ⟨chunk_size, chunk_overlap, min_chunk_size⟩

/-- True when the token accumulated so far ends with `.`, `!` or `?`, the
lookbehind of the sentence-splitting regex. -/
def endsSentencePunct (acc : List Char) : Bool :=
  match acc with
  | h :: _ => h = '.' || h = '!' || h = '?'
  | [] => false

/-- Helper for `splitSentences`: one-pass scan implementing the regex split
`(?<=[.!?])\s+(?=[A-Z])`.  `acc` holds the current token reversed; `ws`
holds, reversed, a pending whitespace run that follows a `.`, `!` or `?`
(nonempty only then).  If the run is followed by an upper-case letter the
token is closed and the run discarded as the separator; otherwise the run
is ordinary token text. -/
def splitSentAux : List Char → List Char → List Char → List String
  | [], ws, acc => [String.mk (ws ++ acc).reverse]
  | c :: rest, ws, acc =>
    if pyIsSpace c then
      if ws.isEmpty then
        if endsSentencePunct acc then splitSentAux rest [c] acc
        else splitSentAux rest [] (c :: acc)
      else splitSentAux rest (c :: ws) acc
    else
      if ws.isEmpty then splitSentAux rest [] (c :: acc)
      else if decide ('A' ≤ c ∧ c ≤ 'Z') then
        String.mk acc.reverse :: splitSentAux rest [] [c]
      else splitSentAux rest [] (c :: (ws ++ acc))

/-- `TextChunker._split_sentences`: regex split, then strip each piece and
drop the empty ones. -/
def splitSentences (text : String) : List String :=
  ((splitSentAux text.data [] []).map pyStrip).filter (fun s => s ≠ "")

/-- Python `' '.join(current_chunk)`. -/
def joinSp (l : List String) : String := String.intercalate " " l

/-- Total character length of a list of sentences (no separators), the
quantity tracked by `overlap_size` and `current_size` in the source. -/
def sumLen (l : List String) : Nat := (l.map String.length).sum

/-- Mutable state of the loop in `TextChunker._create_chunks`. -/
structure CState where
  chunks : List String
  cur : List String
  size : Nat
deriving DecidableEq, Repr

/-- Helper for `overlapPick`: walk `reversed(current_chunk)`, taking sentences
while they fit the overlap budget, stopping at the first that does not. -/
def pickAux (ov : Int) : List String → List String → Nat → List String × Nat
  | [], acc, size => (acc, size)
  | s :: rest, acc, size =>
    if (size + s.length : Int) ≤ ov then pickAux ov rest (s :: acc) (size + s.length)
    else (acc, size)

/-- The overlap-selection loop of `_create_chunks`: pick a suffix of the
closed buffer whose total length fits within `chunk_overlap`. -/
def overlapPick (ov : Int) (cur : List String) : List String × Nat :=
  pickAux ov cur.reverse [] 0

/-- One iteration of the sentence loop in `TextChunker._create_chunks`. -/
def ccStep (cfg : TextChunker) (st : CState) (s : String) : CState :=
  if (st.size + s.length : Int) > cfg.chunk_size ∧ st.cur ≠ [] then
    let ctext := joinSp st.cur
    let chunks' := if (ctext.length : Int) ≥ cfg.min_chunk_size
                   then st.chunks ++ [ctext] else st.chunks
    let ov := overlapPick cfg.chunk_overlap st.cur
    ⟨chunks', ov.1 ++ [s], ov.2 + s.length⟩
  else
    ⟨st.chunks, st.cur ++ [s], st.size + s.length⟩

/-- `TextChunker._create_chunks`: fold the sentence loop, then flush the last
buffer under the same minimum-size rule. -/
def createChunks (cfg : TextChunker) (sentences : List String) : List String :=
  let st := sentences.foldl (ccStep cfg) ⟨[], [], 0⟩
  if st.cur ≠ [] then
    let ctext := joinSp st.cur
    if (ctext.length : Int) ≥ cfg.min_chunk_size then st.chunks ++ [ctext] else st.chunks
  else st.chunks

/-- One chunk dictionary as built in the loop of `TextChunker.chunk_text`,
including the optional `chunk_dict.update(metadata)`. -/
def mkChunkDict (total : Nat) (meta : Option Dict) (i : Nat) (c : String) : Dict :=
  let d : Dict := [("chunk_index", .vn i), ("total_chunks", .vn total),
                   ("content", .vs c), ("char_count", .vn c.length),
                   ("word_count", .vn (pySplit c).length)]
  match meta with
  | some m => pyUpdate d m
  | none => d

/-- The `enumerate(chunks)` loop of `TextChunker.chunk_text`. -/
def chunkDictsAux (total : Nat) (meta : Option Dict) : Nat → List String → List Dict
  | _, [] => []
  | i, c :: cs => mkChunkDict total meta i c :: chunkDictsAux total meta (i + 1) cs

/-- `TextChunker.chunk_text`: empty-input guard, sentence split, chunk
creation, then wrapping with index metadata and the caller metadata. -/
def chunkText (cfg : TextChunker) (text : String) (meta : Option Dict) : List Dict :=
  if pyStrip text = "" then []
  else
    let sentences := splitSentences text
    let chunks := createChunks cfg sentences
    chunkDictsAux chunks.length meta 0 chunks

/-- A parsed PDF section as produced by the structure extractor and consumed
by `chunk_by_sections`. -/
structure Section where
  title : String
  page : Nat
  content : List String
deriving DecidableEq, Repr

/-- The final renumbering loop of `TextChunker.chunk_by_sections`: write
`chunk_index = i` and `total_chunks = total` into every chunk, in order. -/
def renumber (total : Nat) : Nat → List Dict → List Dict
  | _, [] => []
  | i, d :: ds =>
    pySet (pySet d "chunk_index" (.vn i)) "total_chunks" (.vn total)
      :: renumber total (i + 1) ds

/-- The per-section body of `TextChunker.chunk_by_sections`: chunk the text
`"{title}\n\n{joined content}"`, then write `section`, `page` and the caller
metadata onto every resulting chunk. -/
def sectionChunks (cfg : TextChunker) (meta : Option Dict) (sec : Section) : List Dict :=
  let sectionText := sec.title ++ "\n\n" ++ String.intercalate " " sec.content
  (chunkText cfg sectionText none).map (fun ch =>
    let ch := pySet ch "section" (.vs sec.title)
    let ch := pySet ch "page" (.vn sec.page)
    match meta with
    | some m => pyUpdate ch m
    | none => ch)

/-- `TextChunker.chunk_by_sections`: concatenate the per-section chunk lists
in section order, then renumber globally. -/
def chunkBySections (cfg : TextChunker) (sections : List Section) (meta : Option Dict) :
    List Dict :=
  let all := sections.foldl (fun acc sec => acc ++ sectionChunks cfg meta sec) []
  renumber all.length 0 all

/-! ## PDFParser (src/processors/pdf_parser.py) -/

/-- One text span of a PyMuPDF line: `{"text": ..., "size": ..., "flags": ...}`. -/
structure Span where
  text : String
  size : Int
  flags : Nat
deriving DecidableEq, Repr

/-- One PyMuPDF line: an ordered list of spans. -/
structure Line where
  spans : List Span
deriving DecidableEq, Repr

/-- One PyMuPDF block: `{"type": ..., "lines": ...}`; only blocks of type 0
carry text. -/
structure Block where
  btype : Nat
  lines : List Line
deriving DecidableEq, Repr

/-- One PDF page: the ordered list of its blocks. -/
abbrev Page := List Block

/-- Concatenated span text of a line, stripped — the `text` variable of the
line loop in `PDFParser._extract_structure`. -/
def lineText (l : Line) : String :=
  pyStrip (l.spans.foldl (fun a sp => a ++ sp.text) "")

/-- Prefixes matched (case-insensitively) by the first heading regex
`^(Abstract|Introduction|Methods?|Results?|Discussion|Conclusion|References?)`. -/
def headingKeywords : List String :=
  ["abstract", "introduction", "method", "result", "discussion", "conclusion", "reference"]

/-- The numbered-heading regex `^\d+\.?\s+[A-Z]` under `re.IGNORECASE`:
one or more digits, an optional dot, nonempty whitespace, then an ASCII
letter of either case. -/
def numberedHeading (cs : List Char) : Bool :=
  let ds := cs.takeWhile (fun c => c.isDigit)
  if ds.isEmpty then false
  else
    let r1 := cs.drop ds.length
    let r2 := match r1 with
              | '.' :: t => t
              | _ => r1
    let ws := r2.takeWhile pyIsSpace
    if ws.isEmpty then false
    else
      match r2.drop ws.length with
      | c :: _ => decide (('A' ≤ c ∧ c ≤ 'Z') ∨ ('a' ≤ c ∧ c ≤ 'z'))
      | [] => false

/-- The `matches_pattern` test of `PDFParser._is_heading`: either heading
regex matched at the start of the text, case-insensitively. -/
def matchesHeadingPattern (text : String) : Bool :=
  headingKeywords.any (fun k => isPrefixCL k.data (pyLower text).data)
    || numberedHeading text.data

/-- `PDFParser._is_heading`: the heuristic inspects the FIRST span of the
line (its size, flags, and stripped text); a line without spans is never a
heading. -/
def isHeading (l : Line) : Bool :=
  match l.spans with
  | [] => false
  | span :: _ =>
    let fontSize := span.size
    let fontFlags := span.flags
    let isBold := fontFlags &&& 16 ≠ 0
    let isLarge := fontSize > 12
    let text := pyStrip span.text
    let isShort := text.length < 100
    let isUpper := pyIsUpper text && decide (text.length > 3)
    (isBold && isLarge) || (isLarge && isShort) || isUpper || matchesHeadingPattern text

/-- The references test of `_extract_structure`:
`re.search(r'References?|Bibliography|參考文獻', text, re.IGNORECASE)`. -/
def isRefHeading (text : String) : Bool :=
  strContains (pyLower text) "reference" || strContains (pyLower text) "bibliography"
    || strContains (pyLower text) "參考文獻"

/-- Accumulator of `_extract_structure`: the closed sections and the
currently open one. -/
structure ExtState where
  sections : List Section
  current : Option Section
deriving DecidableEq, Repr

/-- One line of the loop body of `_extract_structure`; `none` signals the
`break` taken on a references heading (the state is left unchanged by it). -/
def procLine (pageNum : Nat) (st : ExtState) (l : Line) : Option ExtState :=
  let text := lineText l
  if text = "" then some st
  else if isHeading l then
    if isRefHeading text then none
    else
      let sections' := match st.current with
                       | some s => st.sections ++ [s]
                       | none => st.sections
      some ⟨sections', some ⟨text, pageNum + 1, []⟩⟩
  else
    match st.current with
    | some s => some ⟨st.sections, some ⟨s.title, s.page, s.content ++ [text]⟩⟩
    | none => some st

/-- The line loop of `_extract_structure` over one block.  A references
heading breaks out of THIS loop only: processing resumes with the next
block of the same page. -/
def procLines (pageNum : Nat) (st : ExtState) : List Line → ExtState
  | [] => st
  | l :: ls =>
    match procLine pageNum st l with
    | none => st
    | some st' => procLines pageNum st' ls

/-- One block of `_extract_structure`: only text blocks (type 0) are read. -/
def procBlock (pageNum : Nat) (st : ExtState) (b : Block) : ExtState :=
  if b.btype = 0 then procLines pageNum st b.lines else st

/-- One page of `_extract_structure`. -/
def procPage (st : ExtState) (pageNum : Nat) (p : Page) : ExtState :=
  p.foldl (procBlock pageNum) st

/-- `PDFParser._extract_structure`: scan the pages in order and append the
still-open section at the end. -/
def extractStructure (pages : List Page) : List Section :=
  let st := pages.enum.foldl (fun st pp => procPage st pp.1 pp.2) ⟨[], none⟩
  match st.current with
  | some s => st.sections ++ [s]
  | none => st.sections

/-! ## SimpleRetriever (src/rag/retriever.py) -/

/-- The fixed bilingual keyword table of `SimpleRetriever._translate_query`. -/
def keywordsMap : List (String × String) :=
  [("靈芝", "Ganoderma lucidum"),
   ("免疫", "immune immunomodulatory"),
   ("癌症", "cancer tumor"),
   ("功效", "effect benefit"),
   ("臨床", "clinical"),
   ("試驗", "trial"),
   ("多醣體", "polysaccharide"),
   ("三萜", "triterpenoid")]

/-- `SimpleRetriever._translate_query`: collect the expansions of the table
keys contained in the query; if any matched, prepend them to the original
query, otherwise return the query unchanged. -/
def translateQuery (query : String) : String :=
  let parts := keywordsMap.filterMap
    (fun kv => if strContains query kv.1 then some kv.2 else none)
  if parts ≠ [] then String.intercalate " " parts ++ " " ++ query else query

/-- Python `chunk.get('content', '')` restricted to string values. -/
def contentOf (ch : Dict) : String :=
  match pyGet ch "content" with
  | some (.vs s) => s
  | _ => ""

/-- The scoring loop of `SimpleRetriever._keyword_retrieval`: terms shorter
than 3 characters are skipped, the others add their `str.count` in the
lowered content. -/
def scoreOf (queryTerms : List String) (content : String) : Nat :=
  queryTerms.foldl (fun acc t => if t.length < 3 then acc else acc + pyCount content t) 0

/-- The scored-chunk list built by `_keyword_retrieval`, in corpus order:
`query_terms = set(query.lower().split())`, each chunk gets
`{**chunk, 'score': score}`, and chunks with score 0 are left out. -/
def scoredChunks (chunks : List Dict) (query : String) : List Dict :=
  let queryTerms := (pySplit (pyLower query)).dedup
  chunks.filterMap (fun ch =>
    let content := pyLower (contentOf ch)
    let score := scoreOf queryTerms content
    if score > 0 then some (pySet ch "score" (.vn score)) else none)

/-- The sort key `x['score']` (every scored chunk carries the key). -/
def scoreVal (d : Dict) : Nat :=
  match pyGet d "score" with
  | some (.vn n) => n
  | _ => 0

/-- Stable insertion into a list sorted by score descending: the new element
goes before the first strictly later element with a score not above its
own, modelling the stability of Python `list.sort(reverse=True)`. -/
def insertDesc (x : Dict) : List Dict → List Dict
  | [] => [x]
  | y :: ys => if scoreVal y ≤ scoreVal x then x :: y :: ys else y :: insertDesc x ys

/-- Stable sort by score descending, the semantics of
`scored_chunks.sort(key=lambda x: x['score'], reverse=True)`. -/
def sortDesc : List Dict → List Dict
  | [] => []
  | x :: xs => insertDesc x (sortDesc xs)

/-- `SimpleRetriever._keyword_retrieval`: score, stable-sort descending,
return the first `top_k`. -/
def keywordRetrieval (chunks : List Dict) (query : String) (topK : Nat) : List Dict :=
  (sortDesc (scoredChunks chunks query)).take topK

/-- `SimpleRetriever._vector_retrieval`: an unimplemented placeholder that
falls back to keyword retrieval. -/
def vectorRetrieval (chunks : List Dict) (query : String) (topK : Nat) : List Dict :=
  keywordRetrieval chunks query topK

/-- `SimpleRetriever.retrieve`: empty-corpus guard, query translation, then
dispatch on the method name; unknown methods yield an empty list. -/
def retrieve (chunks : List Dict) (query : String) (topK : Nat) (method : String) :
    List Dict :=
  if chunks = [] then []
  else
    let searchQuery := translateQuery query
    if method = "keyword" then keywordRetrieval chunks searchQuery topK
    else if method = "vector" then vectorRetrieval chunks searchQuery topK
    else []

/-! ## Spec-side definitions

These follow the wording of the specification, for comparison against the
definitions embedded from the source. -/

/-- Number of occurrences of `pat` in `hay` when a match may overlap a
previous one: the number of positions where `pat` starts. -/
def countOverlap (hay pat : String) : Nat :=
  ((List.range (hay.data.length + 1)).filter
    (fun i => isPrefixCL pat.data (hay.data.drop i))).length

/-- The retrieval score exactly as the claim words it: the sum, over the
whitespace tokens of the lower-cased expanded query of length at least 3
(with multiplicity), of the token count in the lower-cased content where a
token may overlap itself. -/
def claimScore (query content : String) : Nat :=
  (((pySplit (pyLower query)).filter (fun t => 3 ≤ t.length)).map
    (fun t => countOverlap (pyLower content) t)).sum

/-- The retrieval score as the code computes it, restated independently:
the sum over the DISTINCT retained tokens of the NON-overlapping
occurrence count. -/
def amendedScore (query content : String) : Nat :=
  ((((pySplit (pyLower query)).dedup).filter (fun t => 3 ≤ t.length)).map
    (fun t => pyCount (pyLower content) t)).sum

/-- The heading classifier as the claim words it, as a function of a text,
a font size and a bold flag. -/
def specIsHeading (text : String) (fontSize : Int) (bold : Bool) : Bool :=
  (bold && decide (fontSize > 12))
    || (decide (fontSize > 12) && decide (text.length < 100))
    || (pyIsUpper text && decide (text.length > 3))
    || matchesHeadingPattern text

/-! ## Dict lemmas -/

/-- Writing a key makes it readable. -/
theorem pyGet_set_self (d : Dict) (k : String) (v : Val) :
    pyGet (pySet d k v) k = some v := by
  induction d with
  | nil => simp [pySet, pyGet]
  | cons kv d ih =>
    obtain ⟨k', v'⟩ := kv
    by_cases h : k' = k
    · simp [pySet, h, pyGet]
    · simp [pySet, h, pyGet, ih]

/-- Writing one key leaves the others unchanged. -/
theorem pyGet_set_ne (d : Dict) (k k' : String) (v : Val) (h : k ≠ k') :
    pyGet (pySet d k v) k' = pyGet d k' := by
  induction d with
  | nil => simp [pySet, pyGet, h]
  | cons kv d ih =>
    obtain ⟨k₀, v₀⟩ := kv
    by_cases h0 : k₀ = k
    · subst h0
      simp [pySet, pyGet, h]
    · by_cases h1 : k₀ = k'
      · subst h1
        simp [pySet, pyGet, h0]
      · simp [pySet, pyGet, h0, h1, ih]

/-- Updating with a dict that does not bind `k` does not change `k`. -/
theorem pyUpdate_get_not_mem (m : Dict) (d : Dict) (k : String)
    (h : k ∉ m.map Prod.fst) : pyGet (pyUpdate d m) k = pyGet d k := by
  induction m generalizing d with
  | nil => rfl
  | cons kv m ih =>
    simp only [List.map_cons, List.mem_cons, not_or] at h
    show pyGet (pyUpdate (pySet d kv.1 kv.2) m) k = pyGet d k
    rw [ih _ h.2, pyGet_set_ne _ _ _ _ (fun hk => h.1 hk.symm)]

/-- Updating with a duplicate-free dict that binds `k` to `v` writes `v`. -/
theorem pyUpdate_get_mem (m : Dict) (d : Dict) (k : String) (v : Val)
    (hnd : (m.map Prod.fst).Nodup) (h : pyGet m k = some v) :
    pyGet (pyUpdate d m) k = some v := by
  induction m generalizing d with
  | nil => simp [pyGet] at h
  | cons kv m ih =>
    obtain ⟨k₁, v₁⟩ := kv
    simp only [List.map_cons, List.nodup_cons] at hnd
    by_cases h1 : k₁ = k
    · subst h1
      have hv : v₁ = v := by simpa [pyGet] using h
      subst hv
      show pyGet (pyUpdate (pySet d k₁ v₁) m) k₁ = some v₁
      rw [pyUpdate_get_not_mem _ _ _ hnd.1, pyGet_set_self]
    · simp only [pyGet, if_neg h1] at h
      show pyGet (pyUpdate (pySet d k₁ v₁) m) k = some v
      exact ih (pySet d k₁ v₁) hnd.2 h

/-! ## Chunk wrapping lemmas -/

/-- Wrapping the chunks preserves their number. -/
theorem chunkDictsAux_length (total : Nat) (meta : Option Dict) (i : Nat)
    (l : List String) : (chunkDictsAux total meta i l).length = l.length := by
  induction l generalizing i with
  | nil => rfl
  | cons c cs ih => simp [chunkDictsAux, ih]

/-- Entry `j` of the wrapped list is the wrap of entry `j`, with the start
index shifted. -/
theorem chunkDictsAux_get (total : Nat) (meta : Option Dict) (l : List String)
    (i j : Nat) (h : j < l.length) :
    (chunkDictsAux total meta i l).get
        ⟨j, by rw [chunkDictsAux_length]; exact h⟩
      = mkChunkDict total meta (i + j) (l.get ⟨j, h⟩) := by
  induction l generalizing i j with
  | nil => exact absurd h (by simp)
  | cons c cs ih =>
    cases j with
    | zero => rfl
    | succ j =>
      have hj : j < cs.length := Nat.lt_of_succ_lt_succ h
      have hidx : i + (j + 1) = (i + 1) + j := by omega
      rw [hidx]
      exact ih (i + 1) j hj

/-- Every wrapped chunk comes from wrapping some chunk text. -/
theorem mem_chunkDictsAux (total : Nat) (meta : Option Dict) (i : Nat)
    (l : List String) (d : Dict) (h : d ∈ chunkDictsAux total meta i l) :
    ∃ j c, c ∈ l ∧ d = mkChunkDict total meta j c := by
  induction l generalizing i with
  | nil => simp [chunkDictsAux] at h
  | cons c cs ih =>
    rcases List.mem_cons.mp h with h0 | h0
    · exact ⟨i, c, List.mem_cons_self .., h0⟩
    · obtain ⟨j, c', hc', hd⟩ := ih (i + 1) h0
      exact ⟨j, c', List.mem_cons_of_mem _ hc', hd⟩

/-- A freshly wrapped chunk reads back its index, provided the caller
metadata does not rebind `chunk_index`. -/
theorem mkChunkDict_get_index (total : Nat) (meta : Option Dict) (i : Nat)
    (c : String)
    (h : ∀ m, meta = some m → "chunk_index" ∉ m.map Prod.fst) :
    pyGet (mkChunkDict total meta i c) "chunk_index" = some (.vn i) := by
  cases meta with
  | none => simp [mkChunkDict, pyGet]
  | some m =>
    rw [mkChunkDict, pyUpdate_get_not_mem _ _ _ (h m rfl)]
    simp [pyGet]

/-- A freshly wrapped chunk reads back the total count, provided the caller
metadata does not rebind `total_chunks`. -/
theorem mkChunkDict_get_total (total : Nat) (meta : Option Dict) (i : Nat)
    (c : String)
    (h : ∀ m, meta = some m → "total_chunks" ∉ m.map Prod.fst) :
    pyGet (mkChunkDict total meta i c) "total_chunks" = some (.vn total) := by
  cases meta with
  | none => simp [mkChunkDict, pyGet]
  | some m =>
    rw [mkChunkDict, pyUpdate_get_not_mem _ _ _ (h m rfl)]
    simp [pyGet]

/-- Renumbering preserves the number of chunks. -/
theorem renumber_length (total i : Nat) (l : List Dict) :
    (renumber total i l).length = l.length := by
  induction l generalizing i with
  | nil => rfl
  | cons d ds ih => simp [renumber, ih]

/-- Entry `j` of the renumbered list is entry `j` with both counters
rewritten. -/
theorem renumber_get (total : Nat) (l : List Dict) (i j : Nat)
    (h : j < l.length) :
    (renumber total i l).get ⟨j, by rw [renumber_length]; exact h⟩
      = pySet (pySet (l.get ⟨j, h⟩) "chunk_index" (.vn (i + j)))
          "total_chunks" (.vn total) := by
  induction l generalizing i j with
  | nil => exact absurd h (by simp)
  | cons d ds ih =>
    cases j with
    | zero => rfl
    | succ j =>
      have hj : j < ds.length := Nat.lt_of_succ_lt_succ h
      have hidx : i + (j + 1) = (i + 1) + j := by omega
      rw [hidx]
      exact ih (i + 1) j hj

/-! ## Stable sort lemmas -/

/-- Membership in a stable insertion. -/
theorem mem_insertDesc (x a : Dict) (l : List Dict) :
    a ∈ insertDesc x l ↔ a = x ∨ a ∈ l := by
  induction l with
  | nil => simp [insertDesc]
  | cons y ys ih =>
    simp only [insertDesc]
    split
    · simp [List.mem_cons]
    · simp only [List.mem_cons, ih]
      tauto

/-- Membership in the stable sort. -/
theorem mem_sortDesc (a : Dict) (l : List Dict) : a ∈ sortDesc l ↔ a ∈ l := by
  induction l with
  | nil => simp [sortDesc]
  | cons y ys ih => simp [sortDesc, mem_insertDesc, ih]

/-- Stable insertion preserves the descending order. -/
theorem pairwise_insertDesc (x : Dict) (l : List Dict)
    (h : l.Pairwise (fun a b => scoreVal b ≤ scoreVal a)) :
    (insertDesc x l).Pairwise (fun a b => scoreVal b ≤ scoreVal a) := by
  induction l with
  | nil => simp [insertDesc]
  | cons y ys ih =>
    rcases List.pairwise_cons.mp h with ⟨hy, hys⟩
    simp only [insertDesc]
    split
    · rename_i hcmp
      refine List.pairwise_cons.mpr ⟨?_, h⟩
      intro b hb
      rcases List.mem_cons.mp hb with rfl | hb'
      · exact hcmp
      · exact le_trans (hy b hb') hcmp
    · rename_i hcmp
      refine List.pairwise_cons.mpr ⟨?_, ih hys⟩
      intro b hb
      rcases (mem_insertDesc x b ys).mp hb with rfl | hb'
      · omega
      · exact hy b hb'

/-- The stable sort is sorted by score, descending. -/
theorem pairwise_sortDesc (l : List Dict) :
    (sortDesc l).Pairwise (fun a b => scoreVal b ≤ scoreVal a) := by
  induction l with
  | nil => simp [sortDesc]
  | cons y ys ih => exact pairwise_insertDesc y (sortDesc ys) ih

/-- Stable insertion and filtering by an exact score commute. -/
theorem filter_insertDesc (x : Dict) (l : List Dict) (n : Nat) :
    (insertDesc x l).filter (fun d => scoreVal d == n)
      = if scoreVal x = n then x :: l.filter (fun d => scoreVal d == n)
        else l.filter (fun d => scoreVal d == n) := by
  induction l with
  | nil =>
    by_cases hx : scoreVal x = n <;>
      simp [insertDesc, List.filter_cons, List.filter_nil, beq_iff_eq, hx]
  | cons y ys ih =>
    by_cases hcmp : scoreVal y ≤ scoreVal x
    · rw [insertDesc, if_pos hcmp]
      simp only [List.filter_cons, beq_iff_eq]
    · rw [insertDesc, if_neg hcmp]
      simp only [List.filter_cons, beq_iff_eq, ih]
      by_cases hx : scoreVal x = n <;> by_cases hy : scoreVal y = n
      · exact absurd (hy.trans hx.symm).le hcmp
      · simp [hx, hy]
      · simp [hx, hy]
      · simp [hx, hy]

/-- The stable sort preserves, for every score value, the original relative
order of the elements with that score. -/
theorem sortDesc_stable (l : List Dict) (n : Nat) :
    (sortDesc l).filter (fun d => scoreVal d == n)
      = l.filter (fun d => scoreVal d == n) := by
  induction l with
  | nil => rfl
  | cons x xs ih =>
    rw [sortDesc, filter_insertDesc, ih]
    by_cases hx : scoreVal x = n <;>
      simp [List.filter_cons, beq_iff_eq, hx]

/-! ## Overlap selection lemmas -/

/-- Length of a sentence list with one sentence in front. -/
theorem sumLen_cons (s : String) (l : List String) :
    sumLen (s :: l) = s.length + sumLen l := by
  simp [sumLen]

/-- Length of a reversed sentence list. -/
theorem sumLen_reverse (l : List String) : sumLen l.reverse = sumLen l := by
  simp [sumLen, List.sum_reverse]

/-- Full description of the backward selection loop `pickAux`: it splits its
input into a consumed prefix `p` and an untouched remainder, returns the
reversal of `p` in front of the accumulator together with the accumulated
size, keeps the budget whenever it consumed anything, and stops only at an
element that would overflow the budget. -/
theorem pickAux_spec (ov : Int) (rl : List String) :
    ∀ (acc : List String) (size : Nat),
    ∃ p rest, rl = p ++ rest ∧
      (pickAux ov rl acc size).1 = p.reverse ++ acc ∧
      (pickAux ov rl acc size).2 = size + sumLen p ∧
      (p = [] ∨ ((size : Int) + sumLen p ≤ ov)) ∧
      (∀ s rest', rest = s :: rest' →
        ov < ((size : Int) + sumLen p + s.length)) := by
  induction rl with
  | nil =>
    intro acc size
    exact ⟨[], [], by simp, by simp [pickAux], by simp [pickAux, sumLen],
      Or.inl rfl, by intro s rest' h; cases h⟩
  | cons s rest0 ih =>
    intro acc size
    by_cases hc : (size + s.length : Int) ≤ ov
    · obtain ⟨p', rest, he, h1, h2, h3, h4⟩ := ih (s :: acc) (size + s.length)
      refine ⟨s :: p', rest, by simp [he], ?_, ?_, ?_, ?_⟩
      · rw [pickAux, if_pos hc, h1]
        simp
      · rw [pickAux, if_pos hc, h2, sumLen_cons]
        omega
      · rcases h3 with h3 | h3
        · subst h3
          right
          simpa [sumLen] using hc
        · right
          rw [sumLen_cons]
          push_cast at h3 ⊢
          omega
      · intro t rest' hr
        have := h4 t rest' hr
        rw [sumLen_cons]
        push_cast at this ⊢
        omega
    · refine ⟨[], s :: rest0, by simp, ?_, ?_, Or.inl rfl, ?_⟩
      · rw [pickAux, if_neg hc]
        simp
      · rw [pickAux, if_neg hc]
        simp [sumLen]
      · intro t rest' hr
        cases hr
        simp only [sumLen, List.map_nil, List.sum_nil]
        push_cast
        omega

/-- The overlap selection returns a suffix of the closed buffer whose total
character length fits the budget, and it is greedily maximal: either the
whole buffer was taken, or the next sentence backward would overflow. -/
theorem overlapPick_spec (ov : Int) (hov : 0 ≤ ov) (cur : List String) :
    ∃ ovl, overlapPick ov cur = (ovl, sumLen ovl) ∧
      (∃ t, cur = t ++ ovl) ∧
      ((sumLen ovl : Int) ≤ ov) ∧
      (ovl = cur ∨ ∃ pre s, cur = pre ++ s :: ovl ∧
        ov < ((sumLen ovl : Int) + s.length)) := by
  obtain ⟨p, rest, he, h1, h2, h3, h4⟩ := pickAux_spec ov cur.reverse [] 0
  have hcur : cur = rest.reverse ++ p.reverse := by
    have := congrArg List.reverse he
    simpa [List.reverse_append] using this
  refine ⟨p.reverse, ?_, ⟨rest.reverse, hcur⟩, ?_, ?_⟩
  · have : (pickAux ov cur.reverse [] 0).2 = sumLen p.reverse := by
      rw [h2, sumLen_reverse]; omega
    rw [overlapPick]
    ext1
    · rw [h1]; simp
    · rw [this]
  · rcases h3 with rfl | h3
    · simpa [sumLen] using hov
    · rw [sumLen_reverse]
      omega
  · cases rest with
    | nil =>
      left
      exact (by simpa using hcur : cur = p.reverse).symm
    | cons t rest' =>
      right
      refine ⟨rest'.reverse, t, by simpa [List.reverse_cons] using hcur, ?_⟩
      have := h4 t rest' rfl
      rw [sumLen_reverse]
      push_cast at this ⊢
      omega

/-! ## Chunk minimum-size lemmas -/

/-- One step of the chunk loop preserves the minimum-size bound on the
emitted chunks: a buffer is only emitted after the explicit length test. -/
theorem ccStep_min (cfg : TextChunker) (st : CState) (s : String)
    (h : ∀ c ∈ st.chunks, (cfg.min_chunk_size : Int) ≤ c.length) :
    ∀ c ∈ (ccStep cfg st s).chunks, (cfg.min_chunk_size : Int) ≤ c.length := by
  intro c hc
  rw [ccStep] at hc
  split at hc
  · simp only at hc
    split at hc
    · rename_i hlen
      rcases List.mem_append.mp hc with hc | hc
      · exact h c hc
      · rcases List.mem_singleton.mp hc with rfl
        exact hlen
    · exact h c hc
  · exact h c hc

/-- The fold of the chunk loop preserves the minimum-size bound. -/
theorem foldl_ccStep_min (cfg : TextChunker) (sentences : List String) :
    ∀ (st : CState),
      (∀ c ∈ st.chunks, (cfg.min_chunk_size : Int) ≤ c.length) →
      ∀ c ∈ (sentences.foldl (ccStep cfg) st).chunks,
        (cfg.min_chunk_size : Int) ≤ c.length := by
  induction sentences with
  | nil => intro st h; exact h
  | cons s rest ih =>
    intro st h
    exact ih (ccStep cfg st s) (ccStep_min cfg st s h)

/-! ## Scoring lemmas -/

/-- The guarded scoring fold equals the sum over the retained tokens. -/
theorem foldl_score_eq (content : String) (l : List String) :
    ∀ acc : Nat,
      l.foldl (fun a t => if t.length < 3 then a else a + pyCount content t) acc
        = acc + ((l.filter (fun t => 3 ≤ t.length)).map
            (fun t => pyCount content t)).sum := by
  induction l with
  | nil => intro acc; simp
  | cons t ts ih =>
    intro acc
    by_cases h : t.length < 3
    · have h' : ¬(3 ≤ t.length) := by omega
      simp only [List.foldl_cons, if_pos h, List.filter_cons, ih]
      simp [h']
    · have h' : 3 ≤ t.length := by omega
      have h'' : (decide (3 ≤ t.length)) = true := decide_eq_true h'
      simp only [List.foldl_cons, if_neg h, List.filter_cons, ih, h'']
      simp only [if_true, List.map_cons, List.sum_cons]
      omega

/-- The score computed by the retriever equals the independently stated
amended score: sum over distinct retained tokens of non-overlapping counts. -/
theorem scoreOf_amended (query content : String) :
    scoreOf ((pySplit (pyLower query)).dedup) (pyLower content)
      = amendedScore query content := by
  rw [scoreOf, amendedScore, foldl_score_eq]
  simp

/-- Transport of `List.get` along an equality of lists. -/
theorem list_get_congr (l l' : List Dict) (h : l = l') (j : Nat)
    (hj : j < l.length) : l.get ⟨j, hj⟩ = l'.get ⟨j, h ▸ hj⟩ := by
  subst h; rfl

/-! ## Claim inputs -/

/-- A heading line "Introduction" (large bold font). -/
def lineIntro : Line := ⟨[⟨"Introduction", 14, 16⟩]⟩

/-- A body line following the Introduction heading. -/
def lineIntroBody : Line := ⟨[⟨"intro text", 10, 0⟩]⟩

/-- A heading line "References" (large bold font). -/
def lineRefs : Line := ⟨[⟨"References", 14, 16⟩]⟩

/-- A bibliography body line placed after the References heading. -/
def lineAfterRefs : Line := ⟨[⟨"Smith 2020", 10, 0⟩]⟩

/-- One page whose References heading sits in its own text block, followed by
a further text block holding a bibliography line. -/
def pagesC1 : List Page :=
  [[⟨0, [lineIntro, lineIntroBody]⟩, ⟨0, [lineRefs]⟩, ⟨0, [lineAfterRefs]⟩]]

/-- A line whose single span carries the text "ABCD efgh". -/
def lineOneSpan : Line := ⟨[⟨"ABCD efgh", 10, 0⟩]⟩

/-- A line with the same concatenated text, same font size and same flags,
split over two spans. -/
def lineTwoSpans : Line := ⟨[⟨"ABCD", 10, 0⟩, ⟨" efgh", 10, 0⟩]⟩

/-! ## Claims -/

/-- C1: the claim says a references heading terminates extraction
immediately, with no later line scanned.  The code contradicts its own
comment ("Stop parsing at References section"): the `break` leaves only the
line loop of the current block, so here the bibliography line "Smith 2020",
which sits in a later block of the same page, is scanned and appended to
the still-open "Introduction" section, even though the "References" line
was recognised as a references heading. -/
theorem extract_scans_after_references :
    isHeading lineRefs = true ∧ isRefHeading (lineText lineRefs) = true ∧
    extractStructure pagesC1
      = [⟨"Introduction", 1, ["intro text", "Smith 2020"]⟩] := by
  decide

/-- C2 counterexample: with `chunk_size = 10`, `chunk_overlap = 0` and
`min_chunk_size = 5`, the text splits into the sentences "Abcdefghij." and
"Abc"; the unavoidable final remainder "Abc" is BELOW the minimum and
`chunk_text` drops it instead of keeping it, contradicting the claimed
exception for the final remainder. -/
theorem chunk_drops_short_final_remainder :
    splitSentences "Abcdefghij. Abc" = ["Abcdefghij.", "Abc"] ∧
    (chunkText ⟨10, 0, 5⟩ "Abcdefghij. Abc" none).map (fun d => pyGet d "content")
      = [some (.vs "Abcdefghij.")] := by
  decide

/-- C2 (amended): every chunk emitted by `_create_chunks` — the final
remainder included — has content length at least `min_chunk_size`; a final
buffer below the minimum is dropped exactly like a non-final one. -/
theorem create_chunks_min_size (cfg : TextChunker) (sentences : List String)
    (c : String) (hc : c ∈ createChunks cfg sentences) :
    (cfg.min_chunk_size : Int) ≤ c.length := by
  have hinv : ∀ c₀ ∈ (CState.mk [] [] 0).chunks, (cfg.min_chunk_size : Int) ≤ c₀.length := by
    intro c₀ h₀
    exact absurd h₀ (List.not_mem_nil c₀)
  have hfold := foldl_ccStep_min cfg sentences ⟨[], [], 0⟩ hinv
  rw [createChunks] at hc
  simp only at hc
  split at hc
  · split at hc
    · rename_i hlen
      rcases List.mem_append.mp hc with hc | hc
      · exact hfold c hc
      · rcases List.mem_singleton.mp hc with rfl
        exact hlen
    · exact hfold c hc
  · exact hfold c hc

/-- C2 witness: the sole surviving chunk of the counterexample input indeed
satisfies the minimum-size bound. -/
theorem create_chunks_min_size_witness :
    "Abcdefghij." ∈ createChunks ⟨10, 0, 5⟩ ["Abcdefghij.", "Abc"] ∧
    ((5 : Int) ≤ ("Abcdefghij." : String).length) :=
  ⟨by decide,
   create_chunks_min_size ⟨10, 0, 5⟩ ["Abcdefghij.", "Abc"] "Abcdefghij." (by decide)⟩

/-- C9: the claim (and the spec) demand that constructing a `TextChunker`
with `chunk_size ≤ 0` fail fast.  The constructor in the source performs no
validation: it accepts `chunk_size = 0` and chunking then proceeds and even
produces chunks, so the invalid configuration is accepted silently. -/
theorem init_accepts_nonpositive_chunk_size :
    TextChunker.init 0 200 0 = ⟨0, 200, 0⟩ ∧
    chunkText (TextChunker.init 0 200 0) "Hello there. Big day." none ≠ [] := by
  decide

/-- C5: whenever the sentence loop closes a buffer (the size guard holds and
the buffer is nonempty), the next buffer consists of a whole-sentence
suffix of the closed buffer followed by the incoming sentence; the suffix
total character length is within `chunk_overlap`, and the selection is
greedily maximal backward: either the whole buffer was carried, or the
next sentence backward would overflow the budget. -/
theorem overlap_seed_whole_sentences (cfg : TextChunker)
    (hov : 0 ≤ cfg.chunk_overlap) (st : CState) (s : String)
    (hgt : (st.size + s.length : Int) > cfg.chunk_size) (hne : st.cur ≠ []) :
    ∃ ovl, (ccStep cfg st s).cur = ovl ++ [s] ∧
      (∃ t, st.cur = t ++ ovl) ∧
      ((sumLen ovl : Int) ≤ cfg.chunk_overlap) ∧
      (ovl = st.cur ∨ ∃ pre s', st.cur = pre ++ s' :: ovl ∧
        cfg.chunk_overlap < ((sumLen ovl : Int) + s'.length)) := by
  obtain ⟨ovl, hpick, hsuf, hbound, hmax⟩ :=
    overlapPick_spec cfg.chunk_overlap hov st.cur
  refine ⟨ovl, ?_, hsuf, hbound, hmax⟩
  rw [ccStep, if_pos ⟨hgt, hne⟩]
  simp only [hpick]

/-- C5 witness: closing the buffer ["abcd", "efg"] (size 7) on the incoming
sentence "hijklmnop" with `chunk_size = 10` and `chunk_overlap = 5` carries
exactly the suffix ["efg"]. -/
theorem overlap_seed_whole_sentences_witness :
    ∃ ovl, (ccStep ⟨10, 5, 0⟩ ⟨[], ["abcd", "efg"], 7⟩ "hijklmnop").cur
        = ovl ++ ["hijklmnop"] ∧
      (∃ t, ["abcd", "efg"] = t ++ ovl) ∧
      ((sumLen ovl : Int) ≤ (⟨10, 5, 0⟩ : TextChunker).chunk_overlap) ∧
      (ovl = ["abcd", "efg"] ∨ ∃ pre s', ["abcd", "efg"] = pre ++ s' :: ovl ∧
        (⟨10, 5, 0⟩ : TextChunker).chunk_overlap
          < ((sumLen ovl : Int) + s'.length)) :=
  overlap_seed_whole_sentences ⟨10, 5, 0⟩ (by decide) ⟨[], ["abcd", "efg"], 7⟩
    "hijklmnop" (by decide) (by decide)

/-- C6 counterexample: `chunk_text` merges caller metadata LAST (caller keys
win), so a caller mapping binding `chunk_index` overwrites the dense index:
the single output chunk carries `chunk_index = 99`, not `0`. -/
theorem chunk_index_overwritten_by_metadata :
    (chunkText ⟨1000, 200, 1⟩ "Hello." (some [("chunk_index", .vn 99)])).length = 1 ∧
    (chunkText ⟨1000, 200, 1⟩ "Hello." (some [("chunk_index", .vn 99)])).map
      (fun d => pyGet d "chunk_index") = [some (.vn 99)] ∧
    some (Val.vn 99) ≠ some (Val.vn 0) := by
  decide

/-- C6 (amended): the `chunk_index` values of `chunk_text` are exactly
`0..N-1` in order with `total_chunks = N`, PROVIDED the caller metadata does
not itself bind `chunk_index` or `total_chunks`; `chunk_by_sections`
renumbers globally after the metadata merge, so its indices are dense for
every metadata mapping. -/
theorem chunk_index_density :
    (∀ (cfg : TextChunker) (text : String) (meta : Option Dict),
      (∀ m, meta = some m →
        "chunk_index" ∉ m.map Prod.fst ∧ "total_chunks" ∉ m.map Prod.fst) →
      ∀ (j : Nat) (hj : j < (chunkText cfg text meta).length),
        pyGet ((chunkText cfg text meta).get ⟨j, hj⟩) "chunk_index"
            = some (.vn j) ∧
        pyGet ((chunkText cfg text meta).get ⟨j, hj⟩) "total_chunks"
            = some (.vn (chunkText cfg text meta).length)) ∧
    (∀ (cfg : TextChunker) (sections : List Section) (meta : Option Dict)
      (j : Nat) (hj : j < (chunkBySections cfg sections meta).length),
        pyGet ((chunkBySections cfg sections meta).get ⟨j, hj⟩) "chunk_index"
            = some (.vn j) ∧
        pyGet ((chunkBySections cfg sections meta).get ⟨j, hj⟩) "total_chunks"
            = some (.vn (chunkBySections cfg sections meta).length)) := by
  constructor
  · intro cfg text meta hmeta j hj
    by_cases hstrip : pyStrip text = ""
    · exact absurd hj (by rw [chunkText, if_pos hstrip]; simp)
    · have e : chunkText cfg text meta
          = chunkDictsAux (createChunks cfg (splitSentences text)).length meta 0
              (createChunks cfg (splitSentences text)) := by
        rw [chunkText, if_neg hstrip]
      have hlen : (chunkText cfg text meta).length
          = (createChunks cfg (splitSentences text)).length := by
        rw [e, chunkDictsAux_length]
      have hjc : j < (createChunks cfg (splitSentences text)).length := by
        rw [← hlen]; exact hj
      rw [list_get_congr _ _ e j hj, chunkDictsAux_get _ _ _ 0 j hjc]
      constructor
      · rw [mkChunkDict_get_index _ _ _ _ (fun m hm => (hmeta m hm).1)]
        simp
      · rw [mkChunkDict_get_total _ _ _ _ (fun m hm => (hmeta m hm).2), hlen]
  · intro cfg sections meta j hj
    have e : chunkBySections cfg sections meta
        = renumber
            (sections.foldl (fun acc sec => acc ++ sectionChunks cfg meta sec) []).length
            0 (sections.foldl (fun acc sec => acc ++ sectionChunks cfg meta sec) []) :=
      rfl
    have hlen : (chunkBySections cfg sections meta).length
        = (sections.foldl (fun acc sec => acc ++ sectionChunks cfg meta sec) []).length := by
      rw [e, renumber_length]
    have hja : j < (sections.foldl (fun acc sec => acc ++ sectionChunks cfg meta sec) []).length := by
      rw [← hlen]; exact hj
    rw [list_get_congr _ _ e j hj, renumber_get _ _ 0 j hja]
    constructor
    · rw [pyGet_set_ne _ _ _ _ (by decide), pyGet_set_self]
      simp
    · rw [pyGet_set_self, hlen]

/-- C6 witness: dense indices on a concrete one-chunk text and a concrete
one-section input. -/
theorem chunk_index_density_witness :
    pyGet ((chunkText ⟨1000, 200, 1⟩ "Hello world." none).get ⟨0, by decide⟩)
        "chunk_index" = some (.vn 0) ∧
    pyGet ((chunkBySections ⟨1000, 200, 1⟩ [⟨"Abstract", 1, ["Alpha."]⟩] none).get
        ⟨0, by decide⟩) "total_chunks" = some (.vn 1) := by
  constructor
  · exact (chunk_index_density.1 ⟨1000, 200, 1⟩ "Hello world." none
      (fun m hm => by cases hm) 0 (by decide)).1
  · have h := (chunk_index_density.2 ⟨1000, 200, 1⟩ [⟨"Abstract", 1, ["Alpha."]⟩]
      none 0 (by decide)).2
    have hL : (chunkBySections ⟨1000, 200, 1⟩ [⟨"Abstract", 1, ["Alpha."]⟩] none).length
        = 1 := by decide
    exact h.trans (by rw [hL])

/-- C7 counterexample: caller metadata wins on conflict, so a caller mapping
binding `char_count` breaks the `char_count == length(content)` invariant:
the output chunk has content "Hello." (length 6) but `char_count = 999`. -/
theorem char_count_overwritten_by_metadata :
    (chunkText ⟨1000, 200, 1⟩ "Hello." (some [("char_count", .vn 999)])).map
      (fun d => pyGet d "content") = [some (.vs "Hello.")] ∧
    (chunkText ⟨1000, 200, 1⟩ "Hello." (some [("char_count", .vn 999)])).map
      (fun d => pyGet d "char_count") = [some (.vn 999)] ∧
    some (Val.vn 999) ≠ some (Val.vn ("Hello." : String).length) := by
  decide

/-- C7 (amended): provided the caller metadata does not bind the reserved
keys `content`, `char_count` and `word_count`, every chunk of `chunk_text`
satisfies `char_count = length(content)` and `word_count` equal to the
whitespace token count of the content; and caller-supplied keys always win:
any binding of the (duplicate-free) metadata is read back verbatim. -/
theorem chunk_counts_and_metadata (cfg : TextChunker) (text : String) (m : Dict)
    (hck : "content" ∉ m.map Prod.fst) (hcc : "char_count" ∉ m.map Prod.fst)
    (hwc : "word_count" ∉ m.map Prod.fst) (hnd : (m.map Prod.fst).Nodup)
    (d : Dict) (hd : d ∈ chunkText cfg text (some m)) :
    (∃ c, pyGet d "content" = some (.vs c) ∧
      pyGet d "char_count" = some (.vn c.length) ∧
      pyGet d "word_count" = some (.vn (pySplit c).length)) ∧
    (∀ k v, pyGet m k = some v → pyGet d k = some v) := by
  by_cases hstrip : pyStrip text = ""
  · rw [chunkText, if_pos hstrip] at hd
    exact absurd hd (List.not_mem_nil d)
  · rw [chunkText, if_neg hstrip] at hd
    obtain ⟨j, c, _, rfl⟩ := mem_chunkDictsAux _ _ _ _ d hd
    refine ⟨⟨c, ?_, ?_, ?_⟩, ?_⟩
    · rw [mkChunkDict, pyUpdate_get_not_mem _ _ _ hck]
      simp [pyGet]
    · rw [mkChunkDict, pyUpdate_get_not_mem _ _ _ hcc]
      simp [pyGet]
    · rw [mkChunkDict, pyUpdate_get_not_mem _ _ _ hwc]
      simp [pyGet]
    · intro k v hkv
      rw [mkChunkDict]
      exact pyUpdate_get_mem m _ k v hnd hkv

/-- C7 witness: the invariants and the metadata merge on a concrete chunk. -/
theorem chunk_counts_and_metadata_witness :
    (∃ c, pyGet [("chunk_index", Val.vn 0), ("total_chunks", Val.vn 1),
        ("content", Val.vs "Hello world."), ("char_count", Val.vn 12),
        ("word_count", Val.vn 2), ("source", Val.vs "test")] "content"
          = some (.vs c) ∧
      pyGet [("chunk_index", Val.vn 0), ("total_chunks", Val.vn 1),
        ("content", Val.vs "Hello world."), ("char_count", Val.vn 12),
        ("word_count", Val.vn 2), ("source", Val.vs "test")] "char_count"
          = some (.vn c.length) ∧
      pyGet [("chunk_index", Val.vn 0), ("total_chunks", Val.vn 1),
        ("content", Val.vs "Hello world."), ("char_count", Val.vn 12),
        ("word_count", Val.vn 2), ("source", Val.vs "test")] "word_count"
          = some (.vn (pySplit c).length)) ∧
    (∀ k v, pyGet [("source", Val.vs "test")] k = some v →
      pyGet [("chunk_index", Val.vn 0), ("total_chunks", Val.vn 1),
        ("content", Val.vs "Hello world."), ("char_count", Val.vn 12),
        ("word_count", Val.vn 2), ("source", Val.vs "test")] k = some v) :=
  chunk_counts_and_metadata ⟨1000, 200, 1⟩ "Hello world." [("source", .vs "test")]
    (by decide) (by decide) (by decide) (by decide) _ (by decide)

/-- C8 counterexample: two lines with the SAME concatenated text, the same
font sizes and the same flags on every span, classified differently — the
classifier reads only the first span, so it is not a function of the line
text, font size and bold flag. -/
theorem heading_not_function_of_line_text :
    lineText lineOneSpan = lineText lineTwoSpans ∧
    lineOneSpan.spans.map Span.size = [10] ∧
    lineTwoSpans.spans.map Span.size = [10, 10] ∧
    lineOneSpan.spans.map Span.flags = [0] ∧
    lineTwoSpans.spans.map Span.flags = [0, 0] ∧
    isHeading lineOneSpan = false ∧
    isHeading lineTwoSpans = true := by
  decide

/-- C8 (amended): the heading classifier is the claimed four-way disjunction
— (bold AND size over 12) OR (size over 12 AND text shorter than 100) OR
(all-uppercase longer than 3) OR the fixed pattern set — applied to the
FIRST span of the line: its stripped text, its size, and bit 4 of its
flags; a line without spans is never a heading. -/
theorem is_heading_first_span :
    (∀ (sp : Span) (rest : List Span),
      isHeading ⟨sp :: rest⟩
        = specIsHeading (pyStrip sp.text) sp.size (decide (sp.flags &&& 16 ≠ 0))) ∧
    isHeading ⟨[]⟩ = false :=
  ⟨fun _ _ => rfl, rfl⟩

/-- C3 counterexample: Python `str.count` counts NON-overlapping
occurrences: for content "aaaa" and query "aaa" the retriever scores 1,
whereas the claimed overlapping count is 2. -/
theorem score_not_overlapping_counts :
    retrieve [[("content", .vs "aaaa")]] "aaa" 5 "keyword"
      = [[("content", .vs "aaaa"), ("score", .vn 1)]] ∧
    claimScore "aaa" "aaaa" = 2 ∧
    (1 : Nat) ≠ 2 := by
  decide

/-- C3 (amended): every returned chunk is a corpus chunk extended with a
score equal to the sum, over the DISTINCT whitespace tokens of the
lower-cased expanded query of length at least 3, of the token's
NON-overlapping occurrence count in the lower-cased content — and that
score is positive. -/
theorem retrieval_score_formula (chunks : List Dict) (query : String)
    (topK : Nat) (d : Dict) (hd : d ∈ keywordRetrieval chunks query topK) :
    ∃ ch, ch ∈ chunks ∧
      d = pySet ch "score" (.vn (amendedScore query (contentOf ch))) ∧
      0 < amendedScore query (contentOf ch) := by
  rw [keywordRetrieval] at hd
  have hd1 : d ∈ sortDesc (scoredChunks chunks query) := List.take_subset _ _ hd
  have hd2 : d ∈ scoredChunks chunks query := (mem_sortDesc _ _).mp hd1
  rw [scoredChunks] at hd2
  obtain ⟨ch, hch, hfd⟩ := List.mem_filterMap.mp hd2
  dsimp only at hfd
  by_cases hpos :
      scoreOf ((pySplit (pyLower query)).dedup) (pyLower (contentOf ch)) > 0
  · rw [if_pos hpos] at hfd
    have hd3 := Option.some.inj hfd
    rw [scoreOf_amended] at hd3 hpos
    exact ⟨ch, hch, hd3.symm, hpos⟩
  · rw [if_neg hpos] at hfd
    exact absurd hfd (by simp)

/-- C3 witness: on a one-chunk corpus where "ganoderma" occurs twice and
"test" never, the returned chunk carries score 2. -/
theorem retrieval_score_formula_witness :
    ∃ ch, ch ∈ [[("content", Val.vs "Ganoderma study. Ganoderma works.")]] ∧
      [("content", Val.vs "Ganoderma study. Ganoderma works."), ("score", Val.vn 2)]
        = pySet ch "score" (.vn (amendedScore "ganoderma test" (contentOf ch))) ∧
      0 < amendedScore "ganoderma test" (contentOf ch) :=
  retrieval_score_formula [[("content", .vs "Ganoderma study. Ganoderma works.")]]
    "ganoderma test" 3
    [("content", .vs "Ganoderma study. Ganoderma works."), ("score", .vn 2)]
    (by decide)

/-- C4: keyword retrieval returns the first `top_k` of the stable descending
sort of the positively scored chunks: the result length is at most `top_k`,
no returned chunk has score 0 (every score key is positive), the result is
sorted by score descending, the sort is stable (for every score value it
preserves the corpus-order list of chunks with that score), and an empty
corpus yields an empty result rather than a failure. -/
theorem retrieve_ranked (chunks : List Dict) (query : String) (topK : Nat) :
    retrieve chunks query topK "keyword"
        = (sortDesc (scoredChunks chunks (translateQuery query))).take topK ∧
    (chunks = [] → retrieve chunks query topK "keyword" = []) ∧
    (retrieve chunks query topK "keyword").length ≤ topK ∧
    (∀ d ∈ retrieve chunks query topK "keyword",
      ∃ n, 0 < n ∧ pyGet d "score" = some (.vn n)) ∧
    (retrieve chunks query topK "keyword").Pairwise
      (fun a b => scoreVal b ≤ scoreVal a) ∧
    (∀ n, (sortDesc (scoredChunks chunks (translateQuery query))).filter
        (fun d => scoreVal d == n)
      = (scoredChunks chunks (translateQuery query)).filter
          (fun d => scoreVal d == n)) := by
  have he : retrieve chunks query topK "keyword"
      = (sortDesc (scoredChunks chunks (translateQuery query))).take topK := by
    rw [retrieve]
    by_cases h : chunks = []
    · rw [if_pos h]
      subst h
      simp [scoredChunks, sortDesc]
    · rw [if_neg h]
      rfl
  refine ⟨he, ?_, ?_, ?_, ?_, ?_⟩
  · intro h
    rw [retrieve, if_pos h]
  · rw [he]
    exact List.length_take_le ..
  · intro d hd
    rw [he] at hd
    have hd2 := (mem_sortDesc _ _).mp (List.take_subset _ _ hd)
    rw [scoredChunks] at hd2
    obtain ⟨ch, _, hfd⟩ := List.mem_filterMap.mp hd2
    dsimp only at hfd
    by_cases hpos : scoreOf ((pySplit (pyLower (translateQuery query))).dedup)
        (pyLower (contentOf ch)) > 0
    · rw [if_pos hpos] at hfd
      have hd3 := Option.some.inj hfd
      exact ⟨_, hpos, by rw [← hd3, pyGet_set_self]⟩
    · rw [if_neg hpos] at hfd
      exact absurd hfd (by simp)
  · rw [he]
    exact (pairwise_sortDesc _).sublist (List.take_sublist _ _)
  · intro n
    exact sortDesc_stable _ n

/-- C4 witness: the ranking facts instantiated on a one-chunk corpus. -/
theorem retrieve_ranked_witness :
    (retrieve [[("content", Val.vs "alpha beta")]] "beta gamma" 1 "keyword").length ≤ 1 ∧
    (([] : List Dict) = [] → retrieve ([] : List Dict) "beta gamma" 1 "keyword" = []) :=
  ⟨(retrieve_ranked [[("content", Val.vs "alpha beta")]] "beta gamma" 1).2.2.1,
   (retrieve_ranked ([] : List Dict) "beta gamma" 1).2.1⟩

/-- C10: vector retrieval is a fallback alias for keyword retrieval —
`retrieve` with method "vector" returns exactly the keyword result on every
corpus, query and `top_k` — and any method outside "keyword" and "vector"
yields an empty list rather than failing. -/
theorem vector_falls_back_to_keyword (chunks : List Dict) (query : String)
    (topK : Nat) (m : String) :
    retrieve chunks query topK "vector" = retrieve chunks query topK "keyword" ∧
    (m ≠ "keyword" → m ≠ "vector" → retrieve chunks query topK m = []) := by
  constructor
  · rw [retrieve, retrieve]
    by_cases h : chunks = []
    · rw [if_pos h, if_pos h]
    · rw [if_neg h, if_neg h]
      rfl
  · intro h1 h2
    rw [retrieve]
    by_cases h : chunks = []
    · rw [if_pos h]
    · rw [if_neg h]
      simp only
      rw [if_neg h1, if_neg h2]

/-- C10 witness: on a concrete corpus, "vector" equals "keyword" and the
unknown method "cosine" yields an empty result. -/
theorem vector_falls_back_to_keyword_witness :
    retrieve [[("content", Val.vs "aaaa")]] "aaa" 5 "vector"
      = retrieve [[("content", Val.vs "aaaa")]] "aaa" 5 "keyword" ∧
    retrieve [[("content", Val.vs "aaaa")]] "aaa" 5 "cosine" = [] :=
  ⟨(vector_falls_back_to_keyword [[("content", Val.vs "aaaa")]] "aaa" 5 "cosine").1,
   (vector_falls_back_to_keyword [[("content", Val.vs "aaaa")]] "aaa" 5 "cosine").2
     (by decide) (by decide)⟩
